import Mathlib

/-!
Verification development for a systematic low-correlation ETF trend strategy.

The development shallowly embeds the signal/allocation engine
(indicators.py) and the event-driven backtesting engine (backtester.py).
Price tables (pandas DataFrames) are modelled as a list of dates plus an
association list of named columns, each column a list of rational prices
(Python floats are modelled as exact rationals).  Operations that can raise
a Python exception (KeyError on a missing column, IndexError on positional
indexing into an empty frame, ZeroDivisionError is not raised by numpy) are
modelled in the Except monad.  Pandas comparisons against NaN (insufficient
rolling history) evaluate to False; rolling statistics are therefore
Option-valued and the boolean signal comparisons treat none as False.
-/

set_option maxRecDepth 1000000

deriving instance DecidableEq for Except

namespace ETFStrat

/-- Ticker symbols are strings, as in the Python source. -/
abbrev Sym := String

/-- Portfolio allocation: mapping symbol to target weight.  Python dicts
preserve insertion order, so a mapping is modelled as an association list in
insertion order (pandas column names are unique, so are dict keys). -/
abbrev Alloc := List (Sym × ℚ)

/-- A price table: the model of a pandas DataFrame with a Date index.
The dates list and every column series have the same length (one price per
symbol per row). -/
structure Table where
  dates : List ℕ
  cols : List (Sym × List ℚ)
deriving DecidableEq

/-- Column access, df[name]: the first column with the given name, or none
when the column is absent (pandas raises KeyError; callers model that). -/
def Table.colGet (t : Table) (s : Sym) : Option (List ℚ) :=
  (t.cols.lookup s)

/-- Positional truncation to the first n rows. -/
def Table.upTo (t : Table) (n : ℕ) : Table :=
  { dates := t.dates.take n, cols := t.cols.map fun p => (p.1, p.2.take n) }

/-- Date-based truncation df.loc[:d]: all rows with date at most d.  The
date index is increasing, so this is a prefix. -/
def Table.upToDate (t : Table) (d : ℕ) : Table :=
  t.upTo (t.dates.takeWhile (fun x => decide (x ≤ d))).length

/-- Price lookup df.loc[date_i, s], addressing the row by position i.
A missing column is a KeyError and a row index past the end of the series
is an IndexError, both modelled as errors. -/
def Table.priceAt (t : Table) (i : ℕ) (s : Sym) : Except String ℚ :=
  match t.colGet s with
  | none => Except.error ("KeyError: " ++ s)
  | some xs =>
    match xs.get? i with
    | none => Except.error ("IndexError: " ++ s)
    | some p => Except.ok p

/-- Error-propagating list map: the model of a Python loop that can raise
at any element, stopping at the first failure. -/
def mapE {α β : Type} (f : α → Except String β) : List α → Except String (List β)
  | [] => Except.ok []
  | a :: as =>
    match f a with
    | Except.error e => Except.error e
    | Except.ok b =>
      match mapE f as with
      | Except.error e => Except.error e
      | Except.ok bs => Except.ok (b :: bs)

/-- calculate_sma: prices.rolling(window=window).mean().  The first
window-1 entries have insufficient history and are NaN, modelled as none
(pandas rolling defaults min_periods to the window size). -/
def calculate_sma (prices : List ℚ) (window : ℕ) : List (Option ℚ) :=
  (List.range prices.length).map fun i =>
    if window ≤ i + 1 then
      some ((((prices.take (i + 1)).drop (i + 1 - window)).sum) / (window : ℚ))
    else none

/-- Pandas greater-than on possibly-NaN values: any comparison with NaN is
False. -/
def pdGT (a b : Option ℚ) : Bool :=
  match a, b with
  | some x, some y => decide (y < x)
  | _, _ => false

/-- Pandas less-than on possibly-NaN values: any comparison with NaN is
False. -/
def pdLT (a b : Option ℚ) : Bool :=
  match a, b with
  | some x, some y => decide (x < y)
  | _, _ => false

/-- Entry signal series for one symbol: (close > SMA50) and (SMA50 > SMA200). -/
def entrySeries (prices : List ℚ) : List Bool :=
  let sma50 := calculate_sma prices 50
  let sma200 := calculate_sma prices 200
  List.zipWith (fun p ab => pdGT (some p) ab.1 && pdGT ab.1 ab.2)
    prices (List.zip sma50 sma200)

/-- Exit signal series for one symbol: (close < SMA200) or (SMA50 < SMA200). -/
def exitSeries (prices : List ℚ) : List Bool :=
  let sma50 := calculate_sma prices 50
  let sma200 := calculate_sma prices 200
  List.zipWith (fun p ab => pdLT (some p) ab.2 || pdLT ab.1 ab.2)
    prices (List.zip sma50 sma200)

/-- check_entry_signals: one boolean entry-signal column per price column.
The Python code names the result columns with an _entry suffix and strips
the suffix when reading them back; the suffix round trip is the identity,
so columns are keyed directly by symbol here. -/
def check_entry_signals (daily : Table) : List (Sym × List Bool) :=
  daily.cols.map fun p => (p.1, entrySeries p.2)

/-- check_exit_signals: one boolean exit-signal column per price column
(the _exit suffix round trip is elided as for entry signals). -/
def check_exit_signals (daily : Table) : List (Sym × List Bool) :=
  daily.cols.map fun p => (p.1, exitSeries p.2)

/-- exit_signals[etf].iloc[-1]: the most recent exit signal of one symbol.
A symbol that is not a price column is a KeyError; an empty frame is an
IndexError. -/
def exitSignalLast (daily : Table) (s : Sym) : Except String Bool :=
  match (check_exit_signals daily).lookup s with
  | none => Except.error ("KeyError: " ++ s)
  | some sig =>
    match sig.getLast? with
    | none => Except.error ("IndexError: " ++ s)
    | some b => Except.ok b

/-- The exit-handling loop of generate_allocations: iterate the held
symbols in order; skip the CASH sentinel; report true at the first held
symbol whose most recent exit signal is true. -/
def exitScan (daily : Table) : List (Sym × ℚ) → Except String Bool
  | [] => Except.ok false
  | (s, _) :: rest =>
    if s = "CASH" then exitScan daily rest
    else
      match exitSignalLast daily s with
      | Except.error e => Except.error e
      | Except.ok true => Except.ok true
      | Except.ok false => exitScan daily rest

/-- Guard of the exit handling: only executed when current_holdings is
supplied and truthy (a non-empty dict). -/
def exitCheck (daily : Table) (cur : Option (List (Sym × ℚ))) : Except String Bool :=
  match cur with
  | none => Except.ok false
  | some hs => exitScan daily hs

/-- Symbols whose most recent entry signal is true, in column order
(the entry filter of generate_allocations). -/
def filteredSyms (daily : Table) : Except String (List Sym) :=
  match mapE (fun p =>
      match (p.2 : List Bool).getLast? with
      | some b => Except.ok (p.1, b)
      | none => Except.error ("IndexError: " ++ p.1)) (check_entry_signals daily) with
  | Except.error e => Except.error e
  | Except.ok pairs => Except.ok ((pairs.filter fun p => p.2).map Prod.fst)

/-- One rolling Pearson correlation observation at row index i for the
window of the last `window` rows.  The real correlation value is
N / sqrt (Vx * Vy) with N = n*Sxy - Sx*Sy, Vx = n*Sxx - Sx^2,
Vy = n*Syy - Sy^2; it is represented here by the order-isomorphic rational
sign(N) * N^2 / (Vx * Vy), so that comparisons of represented values
coincide exactly with comparisons of the real correlations.  Insufficient
history or a zero-variance window is NaN in pandas, modelled as none. -/
def corrObs (xs ys : List ℚ) (window : ℕ) (i : ℕ) : Option ℚ :=
  if window ≤ i + 1 then
    let win := ((List.zip xs ys).take (i + 1)).drop (i + 1 - window)
    let n : ℚ := (window : ℚ)
    let sx := (win.map Prod.fst).sum
    let sy := (win.map Prod.snd).sum
    let sxx := (win.map fun p => p.1 * p.1).sum
    let syy := (win.map fun p => p.2 * p.2).sum
    let sxy := (win.map fun p => p.1 * p.2).sum
    let N := n * sxy - sx * sy
    let Vx := n * sxx - sx * sx
    let Vy := n * syy - sy * sy
    if Vx = 0 ∨ Vy = 0 then none
    else some ((if N < 0 then (-1 : ℚ) else 1) * N ^ 2 / (Vx * Vy))
  else none

/-- weekly[etf].rolling(window).corr(weekly[SPY]): the rolling correlation
series of one symbol against the benchmark. -/
def corrSeries (xs ys : List ℚ) (window : ℕ) : List (Option ℚ) :=
  (List.range xs.length).map (corrObs xs ys window)

/-- calculate_correlations: a correlation column for every non-SPY column
of the weekly table, keyed by symbol (the _corr suffix round trip of the
Python code is the identity and is elided).  A weekly table without an SPY
column is a KeyError. -/
def calculate_correlations (weekly : Table) (window : ℕ) :
    Except String (List (Sym × List (Option ℚ))) :=
  match weekly.colGet "SPY" with
  | none => Except.error "KeyError: SPY"
  | some spy =>
    Except.ok ((weekly.cols.filter fun p => decide (p.1 ≠ "SPY")).map
      fun p => (p.1, corrSeries p.2 spy window))

/-- correlations.iloc[-1].to_dict(): the most recent correlation
observation of every non-benchmark symbol.  Positional indexing into a
frame with no rows, or with no columns at all, is an IndexError. -/
def lastCorrelations (weekly : Table) : Except String (List (Sym × Option ℚ)) :=
  match calculate_correlations weekly 26 with
  | Except.error e => Except.error e
  | Except.ok cols =>
    if cols.isEmpty then Except.error "IndexError: iloc"
    else
      mapE (fun p =>
        match (p.2 : List (Option ℚ)).getLast? with
        | some v => Except.ok (p.1, v)
        | none => Except.error "IndexError: iloc") cols

/-- Sort key of sorted(corr_subset.items(), key=...): compare the
most recent correlation values.  Comparisons where either side is NaN are
False in Python, which makes the sort order of NaN entries unspecified;
none is modelled as comparing below everything, and every theorem about
the ordering assumes all compared correlations are defined. -/
def pdCorrLE (a b : Option ℚ) : Bool :=
  match a, b with
  | some x, some y => decide (x ≤ y)
  | none, _ => true
  | some _, none => false

/-- The sort relation on (symbol, most recent correlation) pairs. -/
def corrKeyLE (a b : Sym × Option ℚ) : Prop := pdCorrLE a.2 b.2 = true

instance : DecidableRel corrKeyLE := fun a b => instDecidableEqBool _ _

instance : IsTotal (Sym × Option ℚ) corrKeyLE where
  total a b := by
    rcases a with ⟨_, _ | xa⟩ <;> rcases b with ⟨_, _ | xb⟩ <;>
      simp [corrKeyLE, pdCorrLE, le_total]

instance : IsTrans (Sym × Option ℚ) corrKeyLE where
  trans a b c hab hbc := by
    rcases a with ⟨_, _ | xa⟩ <;> rcases b with ⟨_, _ | xb⟩ <;>
      rcases c with ⟨_, _ | xc⟩ <;>
      simp_all [corrKeyLE, pdCorrLE] <;> exact le_trans hab hbc

/-- corr_subset: the most recent correlations restricted to the symbols
that passed the entry filter (in the order of the non-benchmark weekly
columns, the universe's declared order). -/
def corrSubset (filtered : List Sym) (lc : List (Sym × Option ℚ)) :
    List (Sym × Option ℚ) :=
  lc.filter fun p => filtered.contains p.1

/-- sorted_etfs: sorted(corr_subset.items(), key=correlation), an
ascending stable sort, modelled by insertion sort with the non-strict
comparison. -/
def sortedEtfs (filtered : List Sym) (lc : List (Sym × Option ℚ)) :
    List (Sym × Option ℚ) :=
  List.insertionSort corrKeyLE (corrSubset filtered lc)

/-- selected: the first three symbols of the ascending correlation order. -/
def selectedSyms (filtered : List Sym) (lc : List (Sym × Option ℚ)) : List Sym :=
  ((sortedEtfs filtered lc).take 3).map Prod.fst

/-- The equal-weight step of generate_allocations: weight 1.0 for a single
selected symbol, otherwise 1/len for each selected symbol. -/
def selectionAlloc (filtered : List Sym) (lc : List (Sym × Option ℚ)) : Alloc :=
  match selectedSyms filtered lc with
  | [s] => [(s, 1)]
  | sel => sel.map fun s => (s, 1 / (sel.length : ℚ))

/-- generate_allocations: target portfolio allocation from entry/exit
trend signals and lowest correlation to SPY, equal-weighted over at most
three selected symbols. -/
def generate_allocations (daily_prices weekly_prices : Table)
    (current_holdings : Option (List (Sym × ℚ))) : Except String Alloc :=
  match exitCheck daily_prices current_holdings with
  | Except.error e => Except.error e
  | Except.ok true => Except.ok [("CASH", 1)]
  | Except.ok false =>
    match filteredSyms daily_prices with
    | Except.error e => Except.error e
    | Except.ok filtered =>
      if filtered.isEmpty then Except.ok [("CASH", 1)]
      else
        match lastCorrelations weekly_prices with
        | Except.error e => Except.error e
        | Except.ok last_correlations =>
          Except.ok (selectionAlloc filtered last_correlations)

/-- check_drift: true when some currently held symbol that is also in the
target allocation deviates from its target weight by more than
tolerance * target. -/
def check_drift (current_allocations allocs : Alloc) (tolerance : ℚ) : Bool :=
  current_allocations.any fun p =>
    match allocs.lookup p.1 with
    | none => false
    | some target => decide (target * tolerance < |p.2 - target|)

/-- A trade record appended to the trade log by run_backtest. -/
structure Trade where
  date : ℕ
  etf : Sym
  shares : ℚ
  price : ℚ
  type : String
  reason : String
  cost : ℚ
deriving DecidableEq

/-- The mutable state of the run_backtest day loop: the portfolio values
recorded so far (chronological), current holdings (symbol to signed share
count), and the trade log so far. -/
structure BTState where
  values : List ℚ
  holdings : List (Sym × ℚ)
  trades : List Trade
deriving DecidableEq

/-- np.isclose with numpy defaults rtol=1e-05, atol=1e-08. -/
def npIsClose (a b : ℚ) : Bool :=
  decide (|a - b| ≤ 1 / 100000000 + (1 / 100000) * |b|)

/-- Mark-to-market: sum of shares times today's price over all held
symbols; any missing price is a fault. -/
def markToMarket (daily : Table) (i : ℕ) (holdings : List (Sym × ℚ)) : Except String ℚ :=
  match mapE (fun p =>
      match daily.priceAt i p.1 with
      | Except.error e => Except.error e
      | Except.ok price => Except.ok (p.2 * price)) holdings with
  | Except.error e => Except.error e
  | Except.ok vals => Except.ok vals.sum

/-- Current weights: shares times price over total portfolio value, per
held symbol. -/
def currentAllocationsOf (daily : Table) (i : ℕ) (holdings : List (Sym × ℚ))
    (total : ℚ) : Except String Alloc :=
  mapE (fun p =>
    match daily.priceAt i p.1 with
    | Except.error e => Except.error e
    | Except.ok price => Except.ok (p.1, p.2 * price / total)) holdings

/-- The move-to-cash loop of run_backtest: one sell trade per held symbol.
The cost charged is proceeds * transaction_cost with proceeds the signed
quantity shares * price, exactly as in the source (no absolute value is
taken on this branch). -/
def sellAll (daily : Table) (i currentDate : ℕ) (rebalanceDates : List ℕ)
    (transaction_cost : ℚ) (holdings : List (Sym × ℚ)) : Except String (List Trade) :=
  mapE (fun p =>
    match daily.priceAt i p.1 with
    | Except.error e => Except.error e
    | Except.ok price =>
      let proceeds := p.2 * price
      let cost := proceeds * transaction_cost
      Except.ok { date := currentDate, etf := p.1, shares := -p.2, price := price,
                  type := "sell",
                  reason := if currentDate ∈ rebalanceDates then "rebalance" else "exit_signal",
                  cost := cost }) holdings

/-- Target share counts: (target weight * portfolio value) / price per
symbol of the target allocation (target_value and target_shares of the
source, composed). -/
def targetSharesOf (daily : Table) (i : ℕ) (allocations : Alloc) (value : ℚ) :
    Except String (List (Sym × ℚ)) :=
  mapE (fun p =>
    match daily.priceAt i p.1 with
    | Except.error e => Except.error e
    | Except.ok price => Except.ok (p.1, p.2 * value / price)) allocations

/-- set(holdings.keys()).union(allocations.keys()): Python set iteration
order is implementation-defined (stable within a process); it is modelled
canonically as held symbols first, then new target symbols. -/
def unionSyms (holdings : List (Sym × ℚ)) (target_shares : List (Sym × ℚ)) : List Sym :=
  holdings.map Prod.fst ++
    (target_shares.map Prod.fst).filter fun s => decide (s ∉ holdings.map Prod.fst)

/-- The rebalance loop of run_backtest: for every symbol in the union of
held and targeted symbols, look the price up (a missing price faults even
when no trade results), and emit a delta trade unless current and target
share counts are numerically close.  Cost here is |delta * price| times
the cost rate. -/
def rebalTrades (daily : Table) (i currentDate : ℕ) (transaction_cost : ℚ)
    (holdings : List (Sym × ℚ)) (target_shares : List (Sym × ℚ)) :
    Except String (List (Option Trade)) :=
  mapE (fun s =>
    let current_shares := (holdings.lookup s).getD 0
    let target_share := (target_shares.lookup s).getD 0
    match daily.priceAt i s with
    | Except.error e => Except.error e
    | Except.ok price =>
      if npIsClose current_shares target_share then Except.ok none
      else
        let trade_shares := target_share - current_shares
        let cost := |trade_shares * price| * transaction_cost
        Except.ok (some { date := currentDate, etf := s, shares := trade_shares,
                          price := price,
                          type := if 0 < trade_shares then "buy" else "sell",
                          reason := "rebalance", cost := cost }))
    (unionSyms holdings target_shares)

/-- One iteration of the run_backtest day loop at row index i: mark to
market (carry the previous value forward when nothing is held), compute
current weights, query generate_allocations on the history truncated to
today, decide whether to trade (scheduled rebalance date, drift breach
while holding, or a CASH target while holding), and execute the trade.
The source also computes an unused daily_returns row ratio; it is elided
here because it cannot fault (whole-row access by an existing label). -/
def dayStep (daily weekly : Table) (rebalanceDates : List ℕ) (transaction_cost : ℚ)
    (i : ℕ) (st : BTState) : Except String BTState :=
  let currentDate := daily.dates.getD i 0
  let prevValue := st.values.getLastD 0
  match (if st.holdings.isEmpty then Except.ok prevValue
         else markToMarket daily i st.holdings) with
  | Except.error e => Except.error e
  | Except.ok v0 =>
    match (if st.holdings.isEmpty then Except.ok []
           else currentAllocationsOf daily i st.holdings v0) with
    | Except.error e => Except.error e
    | Except.ok current_allocations =>
      match generate_allocations (daily.upToDate currentDate) (weekly.upToDate currentDate)
          (if st.holdings.isEmpty then none else some current_allocations) with
      | Except.error e => Except.error e
      | Except.ok allocations =>
        let t1 : Bool := decide (currentDate ∈ rebalanceDates)
        let t2 : Bool :=
          if !st.holdings.isEmpty && !t1 then
            t1 || check_drift current_allocations allocations (1 / 4)
          else t1
        let hasCash : Bool := (allocations.lookup "CASH").isSome
        let should_trade : Bool :=
          if !st.holdings.isEmpty && hasCash && !t2 then true else t2
        if should_trade then
          if hasCash then
            if st.holdings.isEmpty then
              Except.ok { values := st.values ++ [v0], holdings := [], trades := st.trades }
            else
              match sellAll daily i currentDate rebalanceDates transaction_cost st.holdings with
              | Except.error e => Except.error e
              | Except.ok newTrades =>
                let total_cost := (newTrades.map Trade.cost).sum
                Except.ok { values := st.values ++ [v0 - total_cost], holdings := [],
                            trades := st.trades ++ newTrades }
          else
            match targetSharesOf daily i allocations v0 with
            | Except.error e => Except.error e
            | Except.ok target_shares =>
              match rebalTrades daily i currentDate transaction_cost st.holdings target_shares with
              | Except.error e => Except.error e
              | Except.ok tradeOpts =>
                let newTrades := tradeOpts.filterMap id
                let total_cost := (newTrades.map Trade.cost).sum
                Except.ok { values := st.values ++ [v0 - total_cost],
                            holdings := target_shares,
                            trades := st.trades ++ newTrades }
        else
          Except.ok { values := st.values ++ [v0], holdings := st.holdings, trades := st.trades }

/-- The day loop: n iterations of dayStep starting at row index i,
halting at the first fault. -/
def runAux (daily weekly : Table) (rebalanceDates : List ℕ) (transaction_cost : ℚ) :
    ℕ → ℕ → BTState → Except String BTState
  | 0, _, st => Except.ok st
  | Nat.succ n, i, st =>
    match dayStep daily weekly rebalanceDates transaction_cost i st with
    | Except.error e => Except.error e
    | Except.ok stNext => runAux daily weekly rebalanceDates transaction_cost n (i + 1) stNext

/-- run_backtest: seed the equity curve with the initial capital at row 0
and iterate the day loop over rows 1 .. len-1.  The scheduled rebalance
dates are produced in the source by pd.date_range over the fixed index
endpoints (a pure calendar enumeration with no other inputs); that derived
list is modelled as an explicit configuration input. -/
def run_backtest (daily weekly : Table) (rebalanceDates : List ℕ)
    (initial_capital transaction_cost : ℚ) : Except String (List ℚ × List Trade) :=
  match runAux daily weekly rebalanceDates transaction_cost (daily.dates.length - 1) 1
      { values := [initial_capital], holdings := [], trades := [] } with
  | Except.error e => Except.error e
  | Except.ok st => Except.ok (st.values, st.trades)

/-- Arithmetic mean of a series (pandas Series.mean). -/
def sampleMean (xs : List ℚ) : ℚ := xs.sum / (xs.length : ℚ)

/-- Sample variance with the pandas default ddof=1: squared deviations
from the mean divided by N - 1 (the square of Series.std). -/
def sampleVar (xs : List ℚ) : ℚ :=
  ((xs.map fun x => (x - sampleMean xs) ^ 2).sum) / ((xs.length : ℚ) - 1)

/-- Exact value of the form coeff * sqrt radicand; used to represent the
irrational Sharpe ratio sqrt(252) * mean / std exactly. -/
structure SqrtVal where
  coeff : ℚ
  radicand : ℚ
deriving DecidableEq

/-- calculate_sharpe.  The float result sqrt(252) * mean(excess) /
std(excess) equals (mean/var) * sqrt(252*var) and is represented exactly
as a SqrtVal; 0.0 is represented as coeff 0, radicand 1.  When the sample
standard deviation is zero, numpy float division yields a non-finite
value (inf or nan, with only a warning), modelled as none; the only guard
in the source is the length check. -/
def calculate_sharpe (returns : List ℚ) (risk_free_rate : ℚ) : Option SqrtVal :=
  if returns.length < 2 then some { coeff := 0, radicand := 1 }
  else
    let excess_returns := returns.map fun r => r - risk_free_rate / 252
    let v := sampleVar excess_returns
    if v = 0 then none
    else some { coeff := sampleMean excess_returns / v, radicand := 252 * v }

/-- One iteration of the calculate_max_drawdown scan.  State is (running
peak, max drawdown so far, date of the last running-peak update, date of
the last max-drawdown update). -/
def mddStep (st : ℚ × ℚ × ℕ × ℕ) (p : ℕ × ℚ) : ℚ × ℚ × ℕ × ℕ :=
  if st.1 < p.2 then (p.2, st.2.1, p.1, st.2.2.2)
  else
    let drawdown := (st.1 - p.2) / st.1
    if st.2.1 < drawdown then (st.1, drawdown, st.2.2.1, p.1) else st

/-- calculate_max_drawdown: forward scan over the (date, value) equity
curve, seeded with the first point; returns (max drawdown, peak date,
trough date), or (0, none, none) for fewer than two points. -/
def calculate_max_drawdown (curve : List (ℕ × ℚ)) : ℚ × Option ℕ × Option ℕ :=
  if curve.length < 2 then (0, none, none)
  else
    match curve with
    | [] => (0, none, none)
    | p0 :: _ =>
      let r := curve.foldl mddStep (p0.2, 0, p0.1, p0.1)
      (r.2.1, some r.2.2.1, some r.2.2.2)

/-! Specification-side definitions, written from the spec's words rather
than from the source, for the refinement claims that compare the code
against the stated contract. -/

/-- Specification predicate on an allocation (spec section 3 and the first
testable property): weights non-negative, weights sum to 1, and the
mapping is either exactly the CASH sentinel or has 1 to 3 non-cash
symbols. -/
def specAllocationOK (r : Alloc) : Prop :=
  (∀ p ∈ r, 0 ≤ p.2) ∧ (r.map Prod.snd).sum = 1 ∧
    (r = [("CASH", 1)] ∨ (1 ≤ r.length ∧ r.length ≤ 3 ∧ ∀ p ∈ r, p.1 ≠ "CASH"))

instance (r : Alloc) : Decidable (specAllocationOK r) := by
  unfold specAllocationOK; infer_instance

/-- Running-drawdown points of an equity curve: for each point, its date,
the date of the running peak in effect at that point, and the drawdown
(peak - value) / peak against that running peak. -/
def ddScan (peak : ℚ) (peakDate : ℕ) : List (ℕ × ℚ) → List (ℕ × ℕ × ℚ)
  | [] => []
  | p :: rest =>
    let peak2 := if peak < p.2 then p.2 else peak
    let pd2 := if peak < p.2 then p.1 else peakDate
    (p.1, pd2, (peak2 - p.2) / peak2) :: ddScan peak2 pd2 rest

/-- The running-drawdown points of a whole curve, seeded with its first
point (whose drawdown is 0 against itself). -/
def specDdPoints (curve : List (ℕ × ℚ)) : List (ℕ × ℕ × ℚ) :=
  match curve with
  | [] => []
  | p0 :: _ => ddScan p0.2 p0.1 curve

/-- The maximum drawdown over all points of the curve. -/
def specMaxDd (curve : List (ℕ × ℚ)) : ℚ :=
  ((specDdPoints curve).map fun x => x.2.2).foldl max 0

/-- The first date at which the maximum drawdown is achieved. -/
def firstMaxDdDate (curve : List (ℕ × ℚ)) : Option ℕ :=
  ((specDdPoints curve).find? fun x => decide (x.2.2 = specMaxDd curve)).map
    fun x => x.1

/-- The maximum value attained anywhere on the curve. -/
def maxValue (curve : List (ℕ × ℚ)) : ℚ :=
  match curve with
  | [] => 0
  | p0 :: rest => (rest.map Prod.snd).foldl max p0.2

/-- The first date at which the curve attains its overall maximum value
(equivalently, the date of the final running peak). -/
def firstMaxValDate (curve : List (ℕ × ℚ)) : Option ℕ :=
  (curve.find? fun p => decide (p.2 = maxValue curve)).map fun p => p.1

/-- Claimed return value of calculate_max_drawdown, written from the
claim's words: the maximum drawdown over all points, the date of the
running peak in effect at the (first) point where that maximum is
achieved, and the first date achieving it; (0, none, none) for fewer than
two points. -/
def specMaxDrawdown (curve : List (ℕ × ℚ)) : ℚ × Option ℕ × Option ℕ :=
  if curve.length < 2 then (0, none, none)
  else
    let pts := specDdPoints curve
    let m := (pts.map fun x => x.2.2).foldl max 0
    match pts.find? fun x => decide (x.2.2 = m) with
    | some x => (m, some x.2.1, some x.1)
    | none => (m, none, none)

/-! Concrete inputs used by witnesses and counterexamples. -/

/-- Two-day flat price table (constant prices, far too short for any
signal, so the target allocation is all cash). -/
def flatDaily : Table :=
  { dates := [0, 1], cols := [("A", [1, 1]), ("SPY", [1, 1])] }

/-- Two-row flat weekly table. -/
def flatWeekly : Table :=
  { dates := [0, 1], cols := [("A", [1, 1]), ("SPY", [1, 1])] }

/-- 200 constant prices: entry and exit signals are both false on the last
day (all strict SMA comparisons fail on a constant series). -/
def pricesFlat : List ℚ := List.replicate 200 1

/-- 200 rising prices: on the last day close 3 is above SMA50 = 101/50 and
SMA50 is above SMA200 = 251/200, so the entry signal is true. -/
def pricesUp : List ℚ := List.replicate 150 1 ++ List.replicate 49 2 ++ [3]

/-- 200 falling prices: on the last day close 1 is below SMA200 = 7/4, so
the exit signal is true (and the entry signal false). -/
def pricesDown : List ℚ := List.replicate 150 2 ++ List.replicate 50 1

/-- Daily table on which only the benchmark SPY passes the entry filter:
A is flat, B is falling, SPY is rising. -/
def daily200 : Table :=
  { dates := List.range 200,
    cols := [("A", pricesFlat), ("B", pricesDown), ("SPY", pricesUp)] }

/-- Three-row weekly table: far too short for the 26-week correlation
window, so every correlation is NaN. -/
def weekly3 : Table :=
  { dates := [0, 1, 2], cols := [("A", [1, 1, 1]), ("B", [1, 1, 1]), ("SPY", [1, 1, 1])] }

/-- Daily table on which the non-benchmark symbol A passes the entry
filter (rising) while B stays flat. -/
def trendDaily : Table :=
  { dates := List.range 200,
    cols := [("A", pricesUp), ("B", pricesFlat), ("SPY", pricesFlat)] }

/-- 26 weekly prices 1..26 (positive variance). -/
def wkA : List ℚ := (List.range 26).map fun i => ((i : ℚ) + 1)

/-- 26 weekly prices alternating 1 and 2 (positive variance). -/
def wkS : List ℚ := (List.range 26).map fun i => if i % 2 = 0 then 1 else 2

/-- 26-row weekly table with well-defined rolling correlations for both
non-benchmark symbols. -/
def weekly26 : Table :=
  { dates := List.range 26, cols := [("A", wkA), ("B", wkA), ("SPY", wkS)] }

/-- Three-day constant-price daily table for the liquidation scenario. -/
def cexDaily : Table :=
  { dates := [0, 1, 2], cols := [("A", [2, 2, 2]), ("SPY", [2, 2, 2])] }

/-- Seeded intermediate state holding a short position of -10 shares of A
(holdings are signed share counts; the simulation loop is a fold over an
explicit state, so intermediate states can be seeded directly). -/
def cexState : BTState :=
  { values := [100, 100], holdings := [("A", -10)], trades := [] }

/-- Seeded state holding a symbol X that is not a column of any price
table (its price is missing on every date). -/
def missingState : BTState :=
  { values := [100], holdings := [("X", 1)], trades := [] }

/-! Helper lemmas about the error-propagating map. -/

theorem mapE_ok_forall {α β : Type} (f : α → Except String β) :
    ∀ {l : List α} {l2 : List β}, mapE f l = Except.ok l2 →
      ∀ a ∈ l, ∃ b ∈ l2, f a = Except.ok b := by
  intro l
  induction l with
  | nil => intro l2 _ a ha; cases ha
  | cons x xs ih =>
    intro l2 h a ha
    unfold mapE at h
    cases hf : f x with
    | error e => rw [hf] at h; cases h
    | ok b =>
      rw [hf] at h
      cases hm : mapE f xs with
      | error e => rw [hm] at h; cases h
      | ok bs =>
        rw [hm] at h
        cases h
        rcases List.mem_cons.mp ha with h1 | h1
        · exact ⟨b, List.mem_cons_self _ _, h1 ▸ hf⟩
        · obtain ⟨b2, hb2, hfb2⟩ := ih hm a h1
          exact ⟨b2, List.mem_cons_of_mem _ hb2, hfb2⟩

theorem mapE_mem_rev {α β : Type} (f : α → Except String β) :
    ∀ {l : List α} {l2 : List β}, mapE f l = Except.ok l2 →
      ∀ b ∈ l2, ∃ a ∈ l, f a = Except.ok b := by
  intro l
  induction l with
  | nil => intro l2 h b hb; unfold mapE at h; cases h; cases hb
  | cons x xs ih =>
    intro l2 h b hb
    unfold mapE at h
    cases hf : f x with
    | error e => rw [hf] at h; cases h
    | ok c =>
      rw [hf] at h
      cases hm : mapE f xs with
      | error e => rw [hm] at h; cases h
      | ok bs =>
        rw [hm] at h
        cases h
        rcases List.mem_cons.mp hb with h1 | h1
        · exact ⟨x, List.mem_cons_self _ _, h1 ▸ hf⟩
        · obtain ⟨a, ha, hfa⟩ := ih hm b h1
          exact ⟨a, List.mem_cons_of_mem _ ha, hfa⟩

theorem mapE_error_of_mem {α β : Type} (f : α → Except String β) {a : α} {e : String} :
    ∀ {l : List α}, a ∈ l → f a = Except.error e →
      ∃ e2, mapE f l = Except.error e2 := by
  intro l
  induction l with
  | nil => intro ha; cases ha
  | cons x xs ih =>
    intro ha hfa
    rcases List.mem_cons.mp ha with h1 | h1
    · subst h1
      exact ⟨e, by unfold mapE; rw [hfa]⟩
    · cases hf : f x with
      | error e3 => exact ⟨e3, by unfold mapE; rw [hf]⟩
      | ok b =>
        obtain ⟨e2, he2⟩ := ih h1 hfa
        exact ⟨e2, by unfold mapE; rw [hf, he2]⟩

theorem mapE_ok_of_forall {α β : Type} (f : α → Except String β) :
    ∀ {l : List α}, (∀ a ∈ l, ∃ b, f a = Except.ok b) →
      ∃ l2, mapE f l = Except.ok l2 := by
  intro l
  induction l with
  | nil => intro _; exact ⟨[], rfl⟩
  | cons x xs ih =>
    intro h
    obtain ⟨b, hb⟩ := h x (List.mem_cons_self _ _)
    obtain ⟨bs, hbs⟩ := ih fun a ha => h a (List.mem_cons_of_mem _ ha)
    exact ⟨b :: bs, by unfold mapE; rw [hb, hbs]⟩

theorem mapE_ok_length {α β : Type} (f : α → Except String β) :
    ∀ {l : List α} {l2 : List β}, mapE f l = Except.ok l2 → l2.length = l.length := by
  intro l
  induction l with
  | nil => intro l2 h; unfold mapE at h; cases h; rfl
  | cons x xs ih =>
    intro l2 h
    unfold mapE at h
    cases hf : f x with
    | error e => rw [hf] at h; cases h
    | ok b =>
      rw [hf] at h
      cases hm : mapE f xs with
      | error e => rw [hm] at h; cases h
      | ok bs => rw [hm] at h; cases h; simp [ih hm]

/-! Inversion lemmas for generate_allocations. -/

theorem selectionAlloc_eq (filtered : List Sym) (lc : List (Sym × Option ℚ)) :
    selectionAlloc filtered lc =
      (selectedSyms filtered lc).map
        fun s => (s, 1 / ((selectedSyms filtered lc).length : ℚ)) := by
  unfold selectionAlloc
  cases h : selectedSyms filtered lc with
  | nil => simp
  | cons a t =>
    cases t with
    | nil => simp
    | cons b t2 => rfl

theorem generate_allocations_inv
    (daily weekly : Table) (cur : Option (List (Sym × ℚ))) (r : Alloc)
    (hok : generate_allocations daily weekly cur = Except.ok r) :
    r = [("CASH", 1)] ∨
    ∃ filtered lc, filteredSyms daily = Except.ok filtered ∧
      lastCorrelations weekly = Except.ok lc ∧ filtered ≠ [] ∧
      r = selectionAlloc filtered lc := by
  unfold generate_allocations at hok
  split at hok
  · cases hok
  · cases hok; exact Or.inl rfl
  · split at hok
    · cases hok
    · rename_i filtered heq2
      split at hok
      · cases hok; exact Or.inl rfl
      · rename_i hemp
        split at hok
        · cases hok
        · rename_i lc heq3
          cases hok
          exact Or.inr ⟨filtered, lc, heq2, heq3, by simpa using hemp, rfl⟩

theorem lastCorrelations_keys {weekly : Table} {lc : List (Sym × Option ℚ)}
    (hl : lastCorrelations weekly = Except.ok lc) :
    ∀ p ∈ lc, p.1 ≠ "SPY" ∧ p.1 ∈ weekly.cols.map Prod.fst := by
  intro p hp
  unfold lastCorrelations at hl
  split at hl
  · cases hl
  · rename_i cols heq
    split at hl
    · cases hl
    · obtain ⟨a, ha, hfa⟩ := mapE_mem_rev _ hl p hp
      have hp1 : p.1 = a.1 := by
        cases hg : (a.2 : List (Option ℚ)).getLast? with
        | none => rw [hg] at hfa; cases hfa
        | some v => rw [hg] at hfa; cases hfa; rfl
      unfold calculate_correlations at heq
      split at heq
      · cases heq
      · cases heq
        obtain ⟨q, hq, hqa⟩ := List.mem_map.mp ha
        have hq2 := List.mem_filter.mp hq
        have ha1 : a.1 = q.1 := by rw [← hqa]
        constructor
        · rw [hp1, ha1]; simpa using hq2.2
        · rw [hp1, ha1]; exact List.mem_map.mpr ⟨q, hq2.1, rfl⟩

theorem selectedSyms_mem {filtered : List Sym} {lc : List (Sym × Option ℚ)} {s : Sym}
    (h : s ∈ selectedSyms filtered lc) :
    ∃ p ∈ corrSubset filtered lc, p.1 = s := by
  unfold selectedSyms at h
  obtain ⟨p, hp, hps⟩ := List.mem_map.mp h
  have hp2 : p ∈ sortedEtfs filtered lc := List.mem_of_mem_take hp
  have hp3 : p ∈ corrSubset filtered lc :=
    (List.perm_insertionSort corrKeyLE (corrSubset filtered lc)).mem_iff.mp hp2
  exact ⟨p, hp3, hps⟩

theorem selectedSyms_length (filtered : List Sym) (lc : List (Sym × Option ℚ)) :
    (selectedSyms filtered lc).length = min 3 (corrSubset filtered lc).length := by
  unfold selectedSyms
  rw [List.length_map, List.length_take]
  unfold sortedEtfs
  rw [(List.perm_insertionSort corrKeyLE (corrSubset filtered lc)).length_eq]

/-! Claim theorems. -/

/-- C4: check_drift returns true exactly when some symbol present in both
the current and target mappings deviates from its target weight by more
than tolerance times the target; a symbol present in only one mapping
never triggers drift.  The two concrete scenarios of the claim evaluate
as stated: holding (A 0.6, B 0.4) against target (A 0.5, B 0.5) at
tolerance 0.25 does not trigger, and against target (A 0.8, B 0.2) it
does (through B). -/
theorem drift_check_characterization :
    (∀ (cur allocs : Alloc) (tol : ℚ),
      check_drift cur allocs tol = true ↔
        ∃ p ∈ cur, ∃ target, allocs.lookup p.1 = some target ∧
          target * tol < |p.2 - target|) ∧
    check_drift [("A", 3/5), ("B", 2/5)] [("A", 1/2), ("B", 1/2)] (1/4) = false ∧
    check_drift [("A", 3/5), ("B", 2/5)] [("A", 4/5), ("B", 1/5)] (1/4) = true := by
  refine ⟨?_, by with_unfolding_all rfl, by with_unfolding_all rfl⟩
  intro cur allocs tol
  simp only [check_drift, List.any_eq_true]
  constructor
  · rintro ⟨p, hp, h⟩
    cases hl : allocs.lookup p.1 with
    | none => rw [hl] at h; cases h
    | some target =>
      rw [hl] at h
      exact ⟨p, hp, target, hl, by simpa using h⟩
  · rintro ⟨p, hp, target, hl, ht⟩
    refine ⟨p, hp, ?_⟩
    rw [hl]
    simpa using ht

/-- C9: run_backtest is a pure function of the price tables and the
configuration (rebalance dates, initial capital, transaction cost rate);
it consults no randomness and no clock, so two runs on equal inputs
produce an equal equity curve and an equal trade log. -/
theorem run_backtest_deterministic
    (d1 d2 w1 w2 : Table) (rb1 rb2 : List ℕ) (c1 c2 t1 t2 : ℚ)
    (hd : d1 = d2) (hw : w1 = w2) (hrb : rb1 = rb2) (hc : c1 = c2) (ht : t1 = t2) :
    run_backtest d1 w1 rb1 c1 t1 = run_backtest d2 w2 rb2 c2 t2 := by
  subst hd; subst hw; subst hrb; subst hc; subst ht; rfl

/-- Witness for C9 at a concrete input. -/
theorem run_backtest_deterministic_witness :
    run_backtest flatDaily flatWeekly [] 10000 (1/1000) =
      run_backtest flatDaily flatWeekly [] 10000 (1/1000) :=
  run_backtest_deterministic flatDaily flatDaily flatWeekly flatWeekly [] []
    10000 10000 (1/1000) (1/1000) rfl rfl rfl rfl rfl

/-- C6 counterexample: on the constant returns series (1, 1, 1) the
excess-return series has zero variance and calculate_sharpe evaluates to
the non-finite division result (none), not to the value 0 claimed by the
spec. -/
theorem sharpe_zero_variance_counterexample :
    calculate_sharpe [1, 1, 1] 0 = none ∧
    (none : Option SqrtVal) ≠ some { coeff := 0, radicand := 1 } := by
  exact ⟨by with_unfolding_all rfl, by simp⟩

/-- C6 (amended): calculate_sharpe returns 0 only under the length guard
(fewer than two observations); with at least two observations the result
is the non-finite float of a zero division exactly when the sample
variance (with the N-1 divisor) of the excess returns is zero. -/
theorem sharpe_guards (returns : List ℚ) (rf : ℚ) :
    (returns.length < 2 → calculate_sharpe returns rf = some { coeff := 0, radicand := 1 }) ∧
    (2 ≤ returns.length →
      (calculate_sharpe returns rf = none ↔
        sampleVar (returns.map fun r => r - rf / 252) = 0)) := by
  constructor
  · intro h; simp [calculate_sharpe, h]
  · intro h
    have h2 : ¬ returns.length < 2 := by omega
    simp only [calculate_sharpe, if_neg h2]
    by_cases hv : sampleVar (returns.map fun r => r - rf / 252) = 0
    · simp [hv]
    · simp [hv]

/-- Witness for C6: the length guard fires on a one-element series, and on
(1, 2, 3) the zero-variance characterization is available. -/
theorem sharpe_guards_witness :
    calculate_sharpe [(1 : ℚ)] 0 = some { coeff := 0, radicand := 1 } ∧
    (calculate_sharpe [1, 2, 3] 0 = none ↔
      sampleVar (([1, 2, 3] : List ℚ).map fun r => r - 0 / 252) = 0) :=
  ⟨(sharpe_guards [1] 0).1 (by simp),
   (sharpe_guards [1, 2, 3] 0).2 (by simp)⟩

/-- C7 counterexample: on the curve (100, 50, 200) the code returns peak
date 2 (the date of the final running peak, formed after the trough),
while the claimed contract returns the running peak in effect at the
trough, date 0; the other two components agree. -/
theorem max_drawdown_counterexample :
    calculate_max_drawdown [(0, 100), (1, 50), (2, 200)] = (1/2, some 2, some 1) ∧
    specMaxDrawdown [(0, 100), (1, 50), (2, 200)] = (1/2, some 0, some 1) ∧
    calculate_max_drawdown [(0, 100), (1, 50), (2, 200)] ≠
      specMaxDrawdown [(0, 100), (1, 50), (2, 200)] := by
  refine ⟨by with_unfolding_all rfl, by with_unfolding_all rfl, ?_⟩
  intro h
  rw [show calculate_max_drawdown [(0, 100), (1, 50), (2, 200)] = (1/2, some 2, some 1) from
        by with_unfolding_all rfl,
      show specMaxDrawdown [(0, 100), (1, 50), (2, 200)] = (1/2, some 0, some 1) from
        by with_unfolding_all rfl] at h
  simp at h

/-- C1 counterexample: on a daily table where only the benchmark SPY
passes the entry filter (A flat, B falling, SPY rising), the entry filter
is non-empty but no filtered symbol has a correlation column, so
generate_allocations returns the empty mapping, which has weight sum 0
and is neither the CASH sentinel nor a 1-to-3 symbol allocation. -/
theorem alloc_empty_counterexample :
    generate_allocations daily200 weekly3 none = Except.ok [] ∧
    ¬ specAllocationOK [] := by
  refine ⟨by with_unfolding_all rfl, ?_⟩
  intro h
  have := h.2.1
  simp at this

/-- C1 (amended): every successfully produced allocation is either the
CASH sentinel, or an equal-weight mapping of 1 to 3 non-cash symbols with
non-negative weights summing to 1, or — when the entry filter passes only
symbols without a correlation column (such as the benchmark itself) — the
empty mapping.  CASH is assumed not to be a traded column of the weekly
table. -/
theorem alloc_wellformed_amended
    (daily weekly : Table) (cur : Option (List (Sym × ℚ))) (r : Alloc)
    (hok : generate_allocations daily weekly cur = Except.ok r)
    (hcash : "CASH" ∉ weekly.cols.map Prod.fst) :
    specAllocationOK r ∨ r = [] := by
  rcases generate_allocations_inv daily weekly cur r hok with h | ⟨filtered, lc, hf, hl, hne, hr⟩
  · subst h
    left
    refine ⟨?_, by simp, Or.inl rfl⟩
    intro p hp
    simp only [List.mem_singleton] at hp
    subst hp
    norm_num
  · subst hr
    rw [selectionAlloc_eq]
    by_cases hlen : (selectedSyms filtered lc).length = 0
    · right
      rw [List.length_eq_zero.mp hlen]
      rfl
    · left
      have hlenq : ((selectedSyms filtered lc).length : ℚ) ≠ 0 := by exact_mod_cast hlen
      refine ⟨?_, ?_, Or.inr ⟨?_, ?_, ?_⟩⟩
      · intro p hp
        obtain ⟨s, hs, hps⟩ := List.mem_map.mp hp
        rw [← hps]
        positivity
      · rw [List.map_map]
        have hcomp : (Prod.snd ∘ fun s : Sym =>
            (s, 1 / ((selectedSyms filtered lc).length : ℚ))) =
            fun _ => 1 / ((selectedSyms filtered lc).length : ℚ) := rfl
        rw [hcomp, List.map_const', List.sum_replicate, nsmul_eq_mul]
        field_simp
      · rw [List.length_map]; omega
      · rw [List.length_map]
        have h3 := selectedSyms_length filtered lc
        omega
      · intro p hp
        obtain ⟨s, hs, hps⟩ := List.mem_map.mp hp
        obtain ⟨pr, hpr, hpr1⟩ := selectedSyms_mem hs
        have hk := (lastCorrelations_keys hl pr (List.mem_filter.mp hpr).1).2
        intro hcon
        apply hcash
        rw [← hcon, ← hps]
        simpa [hpr1] using hk

/-- Witness for C1 (amended) at a concrete input (all-cash result on a
short flat history). -/
theorem alloc_wellformed_amended_witness :
    specAllocationOK [("CASH", 1)] ∨ ([("CASH", 1)] : Alloc) = [] :=
  alloc_wellformed_amended flatDaily flatWeekly none [("CASH", 1)]
    (by with_unfolding_all rfl) (by with_unfolding_all decide)

/-- C10: the benchmark symbol SPY is never a key of any allocation that
generate_allocations returns: correlation columns are computed only for
non-SPY weekly columns and selection draws exclusively from them, and the
cash sentinel is not SPY either. -/
theorem benchmark_never_allocated
    (daily weekly : Table) (cur : Option (List (Sym × ℚ))) (r : Alloc) (q : ℚ)
    (hok : generate_allocations daily weekly cur = Except.ok r) :
    ("SPY", q) ∉ r := by
  intro hmem
  rcases generate_allocations_inv daily weekly cur r hok with h | ⟨filtered, lc, hf, hl, hne, hr⟩
  · subst h
    simp only [List.mem_singleton, Prod.mk.injEq] at hmem
    exact absurd hmem.1 (by decide)
  · subst hr
    rw [selectionAlloc_eq] at hmem
    obtain ⟨s, hs, heq⟩ := List.mem_map.mp hmem
    have hss : s = "SPY" := congrArg Prod.fst heq
    subst hss
    obtain ⟨p, hp, hp1⟩ := selectedSyms_mem hs
    have hk := lastCorrelations_keys hl p (List.mem_filter.mp hp).1
    exact hk.1 hp1

/-- Witness for C10 at a concrete input on which SPY is a column of both
tables, a non-benchmark symbol is selected, and SPY is indeed absent. -/
theorem benchmark_never_allocated_witness :
    ("SPY", (1 : ℚ)) ∉ ([("A", 1)] : Alloc) :=
  benchmark_never_allocated trendDaily weekly26 none [("A", 1)] 1
    (by with_unfolding_all rfl)

/-- The exit scan reports true whenever some held non-CASH symbol has a
true most-recent exit signal and every earlier held symbol can be looked
up without a fault. -/
theorem exitScan_true (daily : Table) :
    ∀ (hs : List (Sym × ℚ)) (etf : Sym) (wt : ℚ),
      (etf, wt) ∈ hs → etf ≠ "CASH" → exitSignalLast daily etf = Except.ok true →
      (∀ p ∈ hs, p.1 ≠ "CASH" → ∃ b, exitSignalLast daily p.1 = Except.ok b) →
      exitScan daily hs = Except.ok true := by
  intro hs
  induction hs with
  | nil => intro etf wt h; cases h
  | cons x xs ih =>
    intro etf wt hmem hne hexit hwf
    obtain ⟨s, w⟩ := x
    by_cases hsc : s = "CASH"
    · have hm2 : (etf, wt) ∈ xs := by
        rcases List.mem_cons.mp hmem with h1 | h1
        · exact absurd (hsc ▸ congrArg Prod.fst h1) hne
        · exact h1
      have hrec := ih etf wt hm2 hne hexit
        fun p hp hpc => hwf p (List.mem_cons_of_mem _ hp) hpc
      simp [exitScan, hsc, hrec]
    · obtain ⟨b, hb⟩ := hwf (s, w) (List.mem_cons_self _ _) hsc
      cases b with
      | true => simp [exitScan, hsc, hb]
      | false =>
        have hm2 : (etf, wt) ∈ xs := by
          rcases List.mem_cons.mp hmem with h1 | h1
          · exfalso
            have hes : etf = s := congrArg Prod.fst h1
            rw [hes, hb] at hexit
            cases hexit
          · exact h1
        have hrec := ih etf wt hm2 hne hexit
          fun p hp hpc => hwf p (List.mem_cons_of_mem _ hp) hpc
        simp [exitScan, hsc, hb, hrec]

/-- C2: when current holdings are supplied and non-empty and some held
non-CASH symbol's most recent exit signal is true, generate_allocations
returns exactly the CASH sentinel, regardless of every other symbol's
entry or exit signals (the whole book is liquidated).  The held symbols
are assumed to be resolvable against the daily table (otherwise Python
raises before reaching the triggering symbol). -/
theorem exit_liquidates_whole_book
    (daily weekly : Table) (hs : List (Sym × ℚ)) (etf : Sym) (wt : ℚ)
    (hmem : (etf, wt) ∈ hs) (hne : etf ≠ "CASH")
    (hexit : exitSignalLast daily etf = Except.ok true)
    (hwf : ∀ p ∈ hs, p.1 ≠ "CASH" → ∃ b, exitSignalLast daily p.1 = Except.ok b) :
    generate_allocations daily weekly (some hs) = Except.ok [("CASH", 1)] := by
  have hscan := exitScan_true daily hs etf wt hmem hne hexit hwf
  simp [generate_allocations, exitCheck, hscan]

/-- Witness for C2: holding the falling symbol B (exit signal true on the
most recent day) liquidates to the CASH sentinel. -/
theorem exit_liquidates_whole_book_witness :
    generate_allocations daily200 weekly3 (some [("B", 1)]) = Except.ok [("CASH", 1)] :=
  exit_liquidates_whole_book daily200 weekly3 [("B", 1)] "B" 1 (by simp)
    (by decide) (by with_unfolding_all rfl)
    (by
      intro p hp hpc
      simp only [List.mem_singleton] at hp
      subst hp
      exact ⟨true, by with_unfolding_all rfl⟩)

/-- C5 counterexample: a seeded short position of -10 shares of A is
liquidated on a CASH-target day; the code charges cost
proceeds * rate = -1/50 (a negative charge that increases the portfolio
value), not |proceeds| * rate = 1/50 as the claim states. -/
theorem liquidation_cost_counterexample :
    dayStep cexDaily flatWeekly [] (1/1000) 2 cexState =
      Except.ok { values := [100, 100, -20 - (-1/50)], holdings := [],
                  trades := [{ date := 2, etf := "A", shares := 10, price := 2,
                               type := "sell", reason := "exit_signal",
                               cost := -(1/50) }] } ∧
    ¬ (0 ≤ (-(1/50) : ℚ)) ∧ (-(1/50) : ℚ) ≠ |(-10 : ℚ) * 2| * (1/1000) := by
  refine ⟨by with_unfolding_all rfl, by norm_num, by rw [abs_of_nonpos (by norm_num)]; norm_num⟩

/-- C8: a missing price for a held symbol faults the day step at the
mark-to-market lookup; a missing price for a targeted symbol faults the
trade-execution lookup; and a faulted day step halts the whole remaining
run with the same error — no branch substitutes a value. -/
theorem missing_price_halts :
    (∀ (daily weekly : Table) (rb : List ℕ) (tc : ℚ) (i : ℕ) (st : BTState)
       (etf : Sym) (sh : ℚ) (e : String),
       (etf, sh) ∈ st.holdings → daily.priceAt i etf = Except.error e →
       ∃ e2, dayStep daily weekly rb tc i st = Except.error e2) ∧
    (∀ (daily weekly : Table) (rb : List ℕ) (tc : ℚ) (i : ℕ) (st : BTState)
       (a : Alloc) (etf : Sym) (w : ℚ) (e : String),
       st.holdings = [] →
       generate_allocations (daily.upToDate (daily.dates.getD i 0))
         (weekly.upToDate (daily.dates.getD i 0)) none = Except.ok a →
       (daily.dates.getD i 0) ∈ rb →
       a.lookup "CASH" = none →
       (etf, w) ∈ a → daily.priceAt i etf = Except.error e →
       ∃ e2, dayStep daily weekly rb tc i st = Except.error e2) ∧
    (∀ (daily weekly : Table) (rb : List ℕ) (tc : ℚ) (n i : ℕ) (st : BTState) (e : String),
       dayStep daily weekly rb tc i st = Except.error e →
       runAux daily weekly rb tc (n + 1) i st = Except.error e) := by
  refine ⟨?_, ?_, ?_⟩
  · intro daily weekly rb tc i st etf sh e hmem hp
    have hne : st.holdings ≠ [] := List.ne_nil_of_mem hmem
    have hie : st.holdings.isEmpty = false := by
      cases hh : st.holdings with
      | nil => exact absurd hh hne
      | cons x t => rfl
    have hfe : (fun p : Sym × ℚ =>
        match daily.priceAt i p.1 with
        | Except.error e => Except.error e
        | Except.ok price => Except.ok (p.2 * price)) (etf, sh) = Except.error e := by
      simp only
      rw [hp]
    obtain ⟨e2, hm⟩ := mapE_error_of_mem
      (fun p : Sym × ℚ =>
        match daily.priceAt i p.1 with
        | Except.error e => Except.error e
        | Except.ok price => Except.ok (p.2 * price)) hmem hfe
    have hm2 : markToMarket daily i st.holdings = Except.error e2 := by
      unfold markToMarket
      rw [hm]
    refine ⟨e2, ?_⟩
    unfold dayStep
    rw [hie]
    simp only [Bool.false_eq_true, if_false]
    rw [hm2]
  · intro daily weekly rb tc i st a etf w e h0 hga hrb hcash hmem hp
    have hie : st.holdings.isEmpty = true := by rw [h0]; rfl
    have hfe : (fun p : Sym × ℚ =>
        match daily.priceAt i p.1 with
        | Except.error e => Except.error e
        | Except.ok price => Except.ok (p.1, p.2 * (st.values.getLastD 0) / price)) (etf, w) =
        Except.error e := by
      simp only
      rw [hp]
    obtain ⟨e2, hts⟩ := mapE_error_of_mem
      (fun p : Sym × ℚ =>
        match daily.priceAt i p.1 with
        | Except.error e => Except.error e
        | Except.ok price => Except.ok (p.1, p.2 * (st.values.getLastD 0) / price)) hmem hfe
    have hts2 : targetSharesOf daily i a (st.values.getLastD 0) = Except.error e2 := by
      unfold targetSharesOf
      exact hts
    refine ⟨e2, ?_⟩
    unfold dayStep
    rw [hie]
    simp only [if_true]
    rw [hga]
    simp only [hcash, Option.isSome_none, decide_eq_true_eq]
    have ht1 : decide ((daily.dates.getD i 0) ∈ rb) = true := decide_eq_true hrb
    rw [ht1]
    rw [hts2]
    simp
  · intro daily weekly rb tc n i st e h
    unfold runAux
    rw [h]

/-- Witness for C8: a seeded holding of the symbol X, which is not a
column of the price table, faults the day step and thereby the rest of
the run. -/
theorem missing_price_halts_witness :
    ∃ e2, dayStep flatDaily flatWeekly [] (1/1000) 1 missingState = Except.error e2 ∧
      runAux flatDaily flatWeekly [] (1/1000) 1 1 missingState = Except.error e2 := by
  obtain ⟨e2, h⟩ := missing_price_halts.1 flatDaily flatWeekly [] (1/1000) 1 missingState
    "X" 1 "KeyError: X" (by simp [missingState]) (by with_unfolding_all rfl)
  exact ⟨e2, h, missing_price_halts.2.2 flatDaily flatWeekly [] (1/1000) 0 1 missingState e2 h⟩

/-- Every held symbol has a resolvable price whenever mark-to-market
succeeds. -/
theorem markToMarket_ok_prices {daily : Table} {i : ℕ} {holdings : List (Sym × ℚ)} {v0 : ℚ}
    (hv0 : markToMarket daily i holdings = Except.ok v0) :
    ∀ p ∈ holdings, ∃ q, daily.priceAt i p.1 = Except.ok q := by
  intro p hp
  unfold markToMarket at hv0
  cases hm : mapE (fun p : Sym × ℚ =>
      match daily.priceAt i p.1 with
      | Except.error e => Except.error e
      | Except.ok price => Except.ok (p.2 * price)) holdings with
  | error e => rw [hm] at hv0; cases hv0
  | ok vals =>
    obtain ⟨b, _, hfb⟩ := mapE_ok_forall _ hm p hp
    cases hq : daily.priceAt i p.1 with
    | error e => rw [hq] at hfb; cases hfb
    | ok q => exact ⟨q, rfl⟩

/-- C5 (amended): on a day step with non-empty holdings whose target
allocation contains the CASH key, every held symbol is liquidated by one
sell trade of its full negated share count; each trade's cost is the
signed proceeds (shares times price) times the cost rate — negative for a
negative share count, no absolute value is taken on this branch — the
summed cost is subtracted from the day's marked value, and holdings
become empty. -/
theorem cash_liquidation_semantics
    (daily weekly : Table) (rb : List ℕ) (tc : ℚ) (i : ℕ) (st : BTState)
    (v0 : ℚ) (ca : Alloc) (a : Alloc)
    (hne : st.holdings ≠ [])
    (hv0 : markToMarket daily i st.holdings = Except.ok v0)
    (hca : currentAllocationsOf daily i st.holdings v0 = Except.ok ca)
    (hga : generate_allocations (daily.upToDate (daily.dates.getD i 0))
      (weekly.upToDate (daily.dates.getD i 0)) (some ca) = Except.ok a)
    (hcash : (a.lookup "CASH").isSome = true) :
    ∃ newTrades,
      sellAll daily i (daily.dates.getD i 0) rb tc st.holdings = Except.ok newTrades ∧
      dayStep daily weekly rb tc i st = Except.ok
        { values := st.values ++ [v0 - (newTrades.map Trade.cost).sum],
          holdings := [], trades := st.trades ++ newTrades } ∧
      newTrades.length = st.holdings.length ∧
      ∀ p ∈ st.holdings, ∃ price, daily.priceAt i p.1 = Except.ok price ∧
        ({ date := daily.dates.getD i 0, etf := p.1, shares := -p.2, price := price,
           type := "sell",
           reason := if (daily.dates.getD i 0) ∈ rb then "rebalance" else "exit_signal",
           cost := p.2 * price * tc } : Trade) ∈ newTrades := by
  have hpr := markToMarket_ok_prices hv0
  have hie : st.holdings.isEmpty = false := by
    cases hh : st.holdings with
    | nil => exact absurd hh hne
    | cons x t => rfl
  obtain ⟨newTrades, hsell⟩ := mapE_ok_of_forall
    (fun p : Sym × ℚ =>
      match daily.priceAt i p.1 with
      | Except.error e => Except.error e
      | Except.ok price =>
        Except.ok { date := daily.dates.getD i 0, etf := p.1, shares := -p.2, price := price,
                    type := "sell",
                    reason := if (daily.dates.getD i 0) ∈ rb then "rebalance"
                              else "exit_signal",
                    cost := p.2 * price * tc }
      : Sym × ℚ → Except String Trade)
    (by
      intro p hp
      obtain ⟨q, hq⟩ := hpr p hp
      refine ⟨{ date := daily.dates.getD i 0, etf := p.1, shares := -p.2, price := q,
                type := "sell",
                reason := if (daily.dates.getD i 0) ∈ rb then "rebalance"
                          else "exit_signal",
                cost := p.2 * q * tc }, ?_⟩
      simp only
      rw [hq])
  have hsell2 : sellAll daily i (daily.dates.getD i 0) rb tc st.holdings =
      Except.ok newTrades := by
    unfold sellAll
    exact hsell
  refine ⟨newTrades, hsell2, ?_, mapE_ok_length _ hsell, ?_⟩
  · have hga2 := hga
    have hsell3 := hsell2
    simp only [List.getD_eq_getElem?_getD] at hga2 hsell3
    cases hT1 : decide ((daily.dates[i]?.getD 0) ∈ rb) <;>
      cases hD : check_drift ca a (1 / 4) <;>
      simp [dayStep, hie, hv0, hca, hga, hga2, hcash, hT1, hD, hsell2, hsell3]
  · intro p hp
    obtain ⟨q, hq⟩ := hpr p hp
    obtain ⟨b, hb, hfb⟩ := mapE_ok_forall _ hsell p hp
    rw [hq] at hfb
    cases hfb
    exact ⟨q, hq, hb⟩

/-- Witness for C5 (amended) at the seeded short-position scenario. -/
theorem cash_liquidation_semantics_witness :
    ∃ newTrades,
      sellAll cexDaily 2 (cexDaily.dates.getD 2 0) [] (1/1000) cexState.holdings =
        Except.ok newTrades ∧
      dayStep cexDaily flatWeekly [] (1/1000) 2 cexState = Except.ok
        { values := cexState.values ++ [(-20 : ℚ) - (newTrades.map Trade.cost).sum],
          holdings := [], trades := cexState.trades ++ newTrades } ∧
      newTrades.length = cexState.holdings.length ∧
      ∀ p ∈ cexState.holdings, ∃ price, cexDaily.priceAt 2 p.1 = Except.ok price ∧
        ({ date := cexDaily.dates.getD 2 0, etf := p.1, shares := -p.2, price := price,
           type := "sell",
           reason := if (cexDaily.dates.getD 2 0) ∈ ([] : List ℕ) then "rebalance"
                     else "exit_signal",
           cost := p.2 * price * (1/1000) } : Trade) ∈ newTrades :=
  cash_liquidation_semantics cexDaily flatWeekly [] (1/1000) 2 cexState (-20) [("A", 1)]
    [("CASH", 1)] (by simp [cexState]) (by with_unfolding_all rfl)
    (by with_unfolding_all rfl) (by with_unfolding_all rfl) (by with_unfolding_all rfl)

/-- A left fold of max never drops below its seed. -/
theorem le_foldl_max : ∀ (l : List ℚ) (a : ℚ), a ≤ l.foldl max a := by
  intro l
  induction l with
  | nil => intro a; exact le_refl a
  | cons x t ih => intro a; exact le_trans (le_max_left a x) (ih (max a x))

/-- Characterization of the calculate_max_drawdown fold: starting from any
state with a non-negative max-drawdown seed, the final peak is the running
maximum of the values, the final max drawdown is the maximum of the
running drawdowns, the final peak date is the seed date when the seed peak
is never exceeded and otherwise the date of the first point attaining the
overall maximum, and the final trough date is the seed date when no
drawdown exceeds the seed and otherwise the date of the first point
attaining the overall maximum drawdown. -/
theorem mdd_fold_master (l : List (ℕ × ℚ)) :
    ∀ (pk md : ℚ) (pd td : ℕ), 0 ≤ md →
      (l.foldl mddStep (pk, md, pd, td)).1 = (l.map Prod.snd).foldl max pk ∧
      (l.foldl mddStep (pk, md, pd, td)).2.1 =
        ((ddScan pk pd l).map fun x => x.2.2).foldl max md ∧
      ((pk = (l.map Prod.snd).foldl max pk →
          (l.foldl mddStep (pk, md, pd, td)).2.2.1 = pd) ∧
       (pk ≠ (l.map Prod.snd).foldl max pk →
          ∃ q, l.find? (fun p => decide (p.2 = (l.map Prod.snd).foldl max pk)) = some q ∧
            (l.foldl mddStep (pk, md, pd, td)).2.2.1 = q.1)) ∧
      ((((ddScan pk pd l).map fun x => x.2.2).foldl max md = md →
          (l.foldl mddStep (pk, md, pd, td)).2.2.2 = td) ∧
       (((ddScan pk pd l).map fun x => x.2.2).foldl max md ≠ md →
          ∃ x, (ddScan pk pd l).find?
              (fun x => decide (x.2.2 =
                ((ddScan pk pd l).map fun y => y.2.2).foldl max md)) = some x ∧
            (l.foldl mddStep (pk, md, pd, td)).2.2.2 = x.1)) := by
  induction l with
  | nil =>
    intro pk md pd td h0
    exact ⟨rfl, rfl, ⟨fun _ => rfl, fun h => absurd rfl h⟩,
      ⟨fun _ => rfl, fun h => absurd rfl h⟩⟩
  | cons p rest ih =>
    intro pk md pd td h0
    by_cases h1 : pk < p.2
    · -- new running peak at p
      have hstep : mddStep (pk, md, pd, td) p = (p.2, md, p.1, td) := by
        simp [mddStep, h1]
      have hscan : ddScan pk pd (p :: rest) =
          (p.1, p.1, 0) :: ddScan p.2 p.1 rest := by
        simp [ddScan, h1]
      have hmfold : ((p :: rest).map Prod.snd).foldl max pk =
          (rest.map Prod.snd).foldl max p.2 := by
        simp [max_eq_right (le_of_lt h1)]
      have hdfold : ((ddScan pk pd (p :: rest)).map fun x => x.2.2).foldl max md =
          ((ddScan p.2 p.1 rest).map fun x => x.2.2).foldl max md := by
        rw [hscan]
        simp [max_eq_left h0]
      obtain ⟨ih1, ih2, ⟨ih3a, ih3b⟩, ih4a, ih4b⟩ := ih p.2 md p.1 td h0
      have hfold : (p :: rest).foldl mddStep (pk, md, pd, td) =
          rest.foldl mddStep (p.2, md, p.1, td) := by
        rw [List.foldl_cons, hstep]
      have hpklt : pk < (rest.map Prod.snd).foldl max p.2 :=
        lt_of_lt_of_le h1 (le_foldl_max _ _)
      refine ⟨?_, ?_, ⟨?_, ?_⟩, ?_, ?_⟩
      · rw [hfold, hmfold]; exact ih1
      · rw [hfold, hdfold]; exact ih2
      · intro hpk
        rw [hmfold] at hpk
        exact absurd hpk (ne_of_lt hpklt)
      · intro _
        rw [hfold, hmfold]
        by_cases hp2 : p.2 = (rest.map Prod.snd).foldl max p.2
        · refine ⟨p, ?_, ih3a hp2⟩
          rw [List.find?_cons_of_pos _ (by simpa using hp2)]
        · obtain ⟨q, hq1, hq2⟩ := ih3b hp2
          refine ⟨q, ?_, hq2⟩
          rw [List.find?_cons_of_neg _ (by simpa using hp2)]
          exact hq1
      · intro hM
        rw [hdfold] at hM
        rw [hfold]
        exact ih4a hM
      · intro hM
        rw [hdfold] at hM
        rw [hfold, hdfold, hscan]
        have hMgt : md < ((ddScan p.2 p.1 rest).map fun x => x.2.2).foldl max md :=
          lt_of_le_of_ne (le_foldl_max _ _) (Ne.symm hM)
        have h0M : ¬ ((0 : ℚ) =
            ((ddScan p.2 p.1 rest).map fun x => x.2.2).foldl max md) :=
          ne_of_lt (lt_of_le_of_lt h0 hMgt)
        obtain ⟨x, hx1, hx2⟩ := ih4b hM
        refine ⟨x, ?_, hx2⟩
        rw [List.find?_cons_of_neg _ (by simpa using h0M)]
        exact hx1
    · -- peak unchanged; a drawdown is computed at p
      have hmfold : ((p :: rest).map Prod.snd).foldl max pk =
          (rest.map Prod.snd).foldl max pk := by
        simp [max_eq_left (le_of_not_lt h1)]
      have hscan : ddScan pk pd (p :: rest) =
          (p.1, pd, (pk - p.2) / pk) :: ddScan pk pd rest := by
        simp [ddScan, h1]
      have hp2ne : pk ≠ (rest.map Prod.snd).foldl max pk →
          ¬ (p.2 = (rest.map Prod.snd).foldl max pk) := by
        intro hpk hc
        apply hpk
        exact le_antisymm (le_foldl_max _ _) (hc ▸ le_of_not_lt h1)
      by_cases h3 : md < (pk - p.2) / pk
      · -- strict improvement of the max drawdown
        have hstep : mddStep (pk, md, pd, td) p = (pk, (pk - p.2) / pk, pd, p.1) := by
          simp [mddStep, h1, h3]
        have hfold : (p :: rest).foldl mddStep (pk, md, pd, td) =
            rest.foldl mddStep (pk, (pk - p.2) / pk, pd, p.1) := by
          rw [List.foldl_cons, hstep]
        have hdd0 : (0 : ℚ) ≤ (pk - p.2) / pk := le_of_lt (lt_of_le_of_lt h0 h3)
        have hdfold : ((ddScan pk pd (p :: rest)).map fun x => x.2.2).foldl max md =
            ((ddScan pk pd rest).map fun x => x.2.2).foldl max ((pk - p.2) / pk) := by
          rw [hscan]
          simp [max_eq_right (le_of_lt h3)]
        obtain ⟨ih1, ih2, ⟨ih3a, ih3b⟩, ih4a, ih4b⟩ := ih pk ((pk - p.2) / pk) pd p.1 hdd0
        refine ⟨?_, ?_, ⟨?_, ?_⟩, ?_, ?_⟩
        · rw [hfold, hmfold]; exact ih1
        · rw [hfold, hdfold]; exact ih2
        · intro hpk
          rw [hmfold] at hpk
          rw [hfold]
          exact ih3a hpk
        · intro hpk
          rw [hmfold] at hpk
          rw [hfold, hmfold]
          obtain ⟨q, hq1, hq2⟩ := ih3b hpk
          refine ⟨q, ?_, hq2⟩
          rw [List.find?_cons_of_neg _ (by simpa using hp2ne hpk)]
          exact hq1
        · intro hM
          rw [hdfold] at hM
          exact absurd h3 (not_lt_of_le (hM ▸ le_foldl_max _ _))
        · intro _
          rw [hfold, hdfold, hscan]
          by_cases hyM : (pk - p.2) / pk =
              ((ddScan pk pd rest).map fun x => x.2.2).foldl max ((pk - p.2) / pk)
          · refine ⟨(p.1, pd, (pk - p.2) / pk), ?_, ih4a hyM.symm⟩
            rw [List.find?_cons_of_pos _ (by simpa using hyM)]
          · obtain ⟨x, hx1, hx2⟩ := ih4b (fun hc => hyM hc.symm)
            refine ⟨x, ?_, hx2⟩
            rw [List.find?_cons_of_neg _ (by simpa using hyM)]
            exact hx1
      · -- no improvement: the state is unchanged at p
        have hstep : mddStep (pk, md, pd, td) p = (pk, md, pd, td) := by
          simp [mddStep, h1, h3]
        have hfold : (p :: rest).foldl mddStep (pk, md, pd, td) =
            rest.foldl mddStep (pk, md, pd, td) := by
          rw [List.foldl_cons, hstep]
        have hdfold : ((ddScan pk pd (p :: rest)).map fun x => x.2.2).foldl max md =
            ((ddScan pk pd rest).map fun x => x.2.2).foldl max md := by
          rw [hscan]
          simp [max_eq_left (le_of_not_lt h3)]
        obtain ⟨ih1, ih2, ⟨ih3a, ih3b⟩, ih4a, ih4b⟩ := ih pk md pd td h0
        refine ⟨?_, ?_, ⟨?_, ?_⟩, ?_, ?_⟩
        · rw [hfold, hmfold]; exact ih1
        · rw [hfold, hdfold]; exact ih2
        · intro hpk
          rw [hmfold] at hpk
          rw [hfold]
          exact ih3a hpk
        · intro hpk
          rw [hmfold] at hpk
          rw [hfold, hmfold]
          obtain ⟨q, hq1, hq2⟩ := ih3b hpk
          refine ⟨q, ?_, hq2⟩
          rw [List.find?_cons_of_neg _ (by simpa using hp2ne hpk)]
          exact hq1
        · intro hM
          rw [hdfold] at hM
          rw [hfold]
          exact ih4a hM
        · intro hM
          rw [hdfold] at hM
          rw [hfold, hdfold, hscan]
          have hMgt : md < ((ddScan pk pd rest).map fun x => x.2.2).foldl max md :=
            lt_of_le_of_ne (le_foldl_max _ _) (Ne.symm hM)
          have hddne : ¬ ((pk - p.2) / pk =
              ((ddScan pk pd rest).map fun x => x.2.2).foldl max md) :=
            ne_of_lt (lt_of_le_of_lt (le_of_not_lt h3) hMgt)
          obtain ⟨x, hx1, hx2⟩ := ih4b hM
          refine ⟨x, ?_, hx2⟩
          rw [List.find?_cons_of_neg _ (by simpa using hddne)]
          exact hx1


/-- C7 (amended): for fewer than two points calculate_max_drawdown returns
(0, none, none); otherwise it returns the maximum over all points of
(running peak - value)/running peak, the first date at which the curve
attains its overall maximum value (the final running peak, which may
postdate the trough), and the first date achieving the maximum drawdown. -/
theorem max_drawdown_amended (curve : List (ℕ × ℚ)) :
    (curve.length < 2 → calculate_max_drawdown curve = (0, none, none)) ∧
    (2 ≤ curve.length →
      calculate_max_drawdown curve =
        (specMaxDd curve, firstMaxValDate curve, firstMaxDdDate curve)) := by
  constructor
  · intro h
    simp [calculate_max_drawdown, h]
  · intro h
    cases curve with
    | nil => simp at h
    | cons p0 rest =>
      have h2 : ¬ (p0 :: rest).length < 2 := by omega
      obtain ⟨m1, m2, ⟨m3a, m3b⟩, m4a, m4b⟩ :=
        mdd_fold_master (p0 :: rest) p0.2 0 p0.1 p0.1 le_rfl
      have hmm : ((p0 :: rest).map Prod.snd).foldl max p0.2 = maxValue (p0 :: rest) := by
        simp [maxValue]
      have hMd : specMaxDd (p0 :: rest) =
          ((ddScan p0.2 p0.1 (p0 :: rest)).map fun x => x.2.2).foldl max 0 := rfl
      have hscan0 : specDdPoints (p0 :: rest) = ddScan p0.2 p0.1 (p0 :: rest) := rfl
      have h3 : 1 ≤ rest.length := by
        simp only [List.length_cons] at h
        omega
      have hcode : calculate_max_drawdown (p0 :: rest) =
          (((p0 :: rest).foldl mddStep (p0.2, 0, p0.1, p0.1)).2.1,
           some ((p0 :: rest).foldl mddStep (p0.2, 0, p0.1, p0.1)).2.2.1,
           some ((p0 :: rest).foldl mddStep (p0.2, 0, p0.1, p0.1)).2.2.2) := by
        simp [calculate_max_drawdown, h2, h3]
      have e1 : ((p0 :: rest).foldl mddStep (p0.2, 0, p0.1, p0.1)).2.1 =
          specMaxDd (p0 :: rest) := by
        rw [m2, hMd]
      have e2 : some ((p0 :: rest).foldl mddStep (p0.2, 0, p0.1, p0.1)).2.2.1 =
          firstMaxValDate (p0 :: rest) := by
        by_cases hfv : p0.2 = maxValue (p0 :: rest)
        · rw [m3a (by rw [hmm]; exact hfv)]
          unfold firstMaxValDate
          rw [List.find?_cons_of_pos _ (by simpa using hfv)]
          rfl
        · obtain ⟨q, hq1, hq2⟩ := m3b (by rw [hmm]; exact hfv)
          rw [hq2]
          unfold firstMaxValDate
          rw [hmm] at hq1
          rw [hq1]
          rfl
      have e3 : some ((p0 :: rest).foldl mddStep (p0.2, 0, p0.1, p0.1)).2.2.2 =
          firstMaxDdDate (p0 :: rest) := by
        have hhead : ddScan p0.2 p0.1 (p0 :: rest) =
            (p0.1, p0.1, (p0.2 - p0.2) / p0.2) :: ddScan p0.2 p0.1 rest := by
          simp [ddScan]
        by_cases hM0 :
            ((ddScan p0.2 p0.1 (p0 :: rest)).map fun x => x.2.2).foldl max 0 = 0
        · rw [m4a hM0]
          unfold firstMaxDdDate
          rw [hscan0, hMd, hM0, hhead]
          rw [List.find?_cons_of_pos _ (by simp)]
          rfl
        · obtain ⟨x, hx1, hx2⟩ := m4b hM0
          rw [hx2]
          unfold firstMaxDdDate
          rw [hscan0, hMd, hx1]
          rfl
      rw [hcode, e1, e2, e3]

/-- Witness for C7 (amended) at concrete curves for both guards. -/
theorem max_drawdown_amended_witness :
    calculate_max_drawdown [(0, 100)] = (0, none, none) ∧
    calculate_max_drawdown [(0, 100), (1, 50), (2, 200)] =
      (specMaxDd [(0, 100), (1, 50), (2, 200)],
       firstMaxValDate [(0, 100), (1, 50), (2, 200)],
       firstMaxDdDate [(0, 100), (1, 50), (2, 200)]) :=
  ⟨(max_drawdown_amended [(0, 100)]).1 (by simp),
   (max_drawdown_amended [(0, 100), (1, 50), (2, 200)]).2 (by simp)⟩

/-! Stable-sort lemmas for the correlation ranking (C3). -/

/-- Any two positions of a list, in order, form a sublist. -/
theorem pair_get_sublist {α : Type} :
    ∀ (l : List α) (i j : ℕ) (hi : i < l.length) (hj : j < l.length), i < j →
      [l.get ⟨i, hi⟩, l.get ⟨j, hj⟩].Sublist l := by
  intro l
  induction l with
  | nil => intro i j hi _ _; simp at hi
  | cons a t ih =>
    intro i j hi hj hij
    cases i with
    | zero =>
      cases j with
      | zero => omega
      | succ j2 =>
        simp only [List.get]
        exact List.Sublist.cons₂ a
          (List.singleton_sublist.mpr (List.get_mem t j2 (by simpa using hj)))
    | succ i2 =>
      cases j with
      | zero => omega
      | succ j2 =>
        simp only [List.get]
        exact List.Sublist.cons a
          (ih i2 j2 (by simpa using hi) (by simpa using hj) (by omega))

/-- Inserting an element whose correlation equals q prepends it to the
q-filtered list: every element walked past compares strictly below q. -/
theorem orderedInsert_filter_pos (q : ℚ) (a : Sym × Option ℚ) (ha : a.2 = some q) :
    ∀ (l : List (Sym × Option ℚ)), (∀ p ∈ l, p.2.isSome = true) →
      (List.orderedInsert corrKeyLE a l).filter (fun x => decide (x.2 = some q)) =
        a :: l.filter (fun x => decide (x.2 = some q)) := by
  intro l
  induction l with
  | nil => simp [List.orderedInsert, ha]
  | cons b t ih =>
    intro hall
    by_cases hle : corrKeyLE a b
    · simp [List.orderedInsert, hle, ha]
    · obtain ⟨vb, hvb⟩ := Option.isSome_iff_exists.mp (hall b (List.mem_cons_self _ _))
      have hblt : vb < q := by
        by_contra hc
        apply hle
        unfold corrKeyLE pdCorrLE
        rw [ha, hvb]
        simpa using le_of_not_lt hc
      have hbne : ¬ (b.2 = some q) := by
        rw [hvb]
        intro hc
        cases hc
        exact lt_irrefl q hblt
      simp only [List.orderedInsert, if_neg hle]
      rw [List.filter_cons_of_neg (by simpa using hbne),
        ih (fun p hp => hall p (List.mem_cons_of_mem _ hp)),
        List.filter_cons_of_neg (by simpa using hbne)]

/-- Inserting an element whose correlation differs from q leaves the
q-filtered list unchanged. -/
theorem orderedInsert_filter_neg (q : ℚ) (a : Sym × Option ℚ) (ha : ¬ (a.2 = some q)) :
    ∀ (l : List (Sym × Option ℚ)),
      (List.orderedInsert corrKeyLE a l).filter (fun x => decide (x.2 = some q)) =
        l.filter (fun x => decide (x.2 = some q)) := by
  intro l
  induction l with
  | nil => simp [List.orderedInsert, ha]
  | cons b t ih =>
    by_cases hle : corrKeyLE a b
    · simp [List.orderedInsert, hle, ha]
    · simp only [List.orderedInsert, if_neg hle]
      by_cases hb : b.2 = some q
      · rw [List.filter_cons_of_pos (by simpa using hb), ih,
          List.filter_cons_of_pos (by simpa using hb)]
      · rw [List.filter_cons_of_neg (by simpa using hb), ih,
          List.filter_cons_of_neg (by simpa using hb)]

/-- Stability of the insertion sort: for every correlation value q, the
elements carrying q appear in the sorted list in their original order. -/
theorem insertionSort_filter_val (q : ℚ) :
    ∀ (l : List (Sym × Option ℚ)), (∀ p ∈ l, p.2.isSome = true) →
      (List.insertionSort corrKeyLE l).filter (fun x => decide (x.2 = some q)) =
        l.filter (fun x => decide (x.2 = some q)) := by
  intro l
  induction l with
  | nil => intro _; rfl
  | cons a t ih =>
    intro hall
    have hallt : ∀ p ∈ t, p.2.isSome = true :=
      fun p hp => hall p (List.mem_cons_of_mem _ hp)
    have hallsort : ∀ p ∈ List.insertionSort corrKeyLE t, p.2.isSome = true :=
      fun p hp => hallt p ((List.perm_insertionSort corrKeyLE t).mem_iff.mp hp)
    simp only [List.insertionSort]
    by_cases ha : a.2 = some q
    · rw [orderedInsert_filter_pos q a ha _ hallsort, ih hallt,
        List.filter_cons_of_pos (by simpa using ha)]
    · rw [orderedInsert_filter_neg q a ha, ih hallt,
        List.filter_cons_of_neg (by simpa using ha)]

/-- The sorted correlation list is pairwise ordered by correlation value,
with ties resolved by the original (universe) order. -/
theorem sorted_pairwise_lex (sub : List (Sym × Option ℚ))
    (hall : ∀ p ∈ sub, p.2.isSome = true) :
    (List.insertionSort corrKeyLE sub).Pairwise (fun p q =>
      ∃ cs ct, (p.1, some cs) ∈ sub ∧ (q.1, some ct) ∈ sub ∧ cs ≤ ct ∧
        (cs = ct → [p.1, q.1].Sublist (sub.map Prod.fst))) := by
  have hsorted : (List.insertionSort corrKeyLE sub).Pairwise corrKeyLE :=
    List.sorted_insertionSort corrKeyLE sub
  have hperm : (List.insertionSort corrKeyLE sub).Perm sub :=
    List.perm_insertionSort corrKeyLE sub
  rw [List.pairwise_iff_get]
  intro i j hij
  have hmi : (List.insertionSort corrKeyLE sub).get i ∈ sub :=
    hperm.mem_iff.mp (List.get_mem _ _ _)
  have hmj : (List.insertionSort corrKeyLE sub).get j ∈ sub :=
    hperm.mem_iff.mp (List.get_mem _ _ _)
  obtain ⟨cs, hcs⟩ := Option.isSome_iff_exists.mp (hall _ hmi)
  obtain ⟨ct, hct⟩ := Option.isSome_iff_exists.mp (hall _ hmj)
  have hrel : corrKeyLE ((List.insertionSort corrKeyLE sub).get i)
      ((List.insertionSort corrKeyLE sub).get j) :=
    List.pairwise_iff_get.mp hsorted i j hij
  have hle : cs ≤ ct := by
    have h2 : pdCorrLE ((List.insertionSort corrKeyLE sub).get i).2
        ((List.insertionSort corrKeyLE sub).get j).2 = true := hrel
    rw [hcs, hct] at h2
    simpa [pdCorrLE] using h2
  have heqi : ((List.insertionSort corrKeyLE sub).get i) =
      (((List.insertionSort corrKeyLE sub).get i).1, some cs) := by
    rw [← hcs]
  have heqj : ((List.insertionSort corrKeyLE sub).get j) =
      (((List.insertionSort corrKeyLE sub).get j).1, some ct) := by
    rw [← hct]
  refine ⟨cs, ct, heqi ▸ hmi, heqj ▸ hmj, hle, ?_⟩
  intro heq
  have hpair : [(List.insertionSort corrKeyLE sub).get i,
      (List.insertionSort corrKeyLE sub).get j].Sublist
      (List.insertionSort corrKeyLE sub) :=
    pair_get_sublist _ i.1 j.1 i.2 j.2 hij
  have hfil := hpair.filter (fun x => decide (x.2 = some cs))
  have hpairfil : [(List.insertionSort corrKeyLE sub).get i,
      (List.insertionSort corrKeyLE sub).get j].filter
      (fun x => decide (x.2 = some cs)) =
      [(List.insertionSort corrKeyLE sub).get i,
       (List.insertionSort corrKeyLE sub).get j] := by
    rw [List.filter_cons_of_pos (by simpa using hcs),
      List.filter_cons_of_pos (by rw [hct, ← heq]; simp)]
    rfl
  rw [hpairfil, insertionSort_filter_val cs sub hall] at hfil
  have hsub2 : [(List.insertionSort corrKeyLE sub).get i,
      (List.insertionSort corrKeyLE sub).get j].Sublist sub :=
    hfil.trans (List.filter_sublist sub)
  have := hsub2.map Prod.fst
  simpa using this

/-- C3: whenever generate_allocations returns a non-cash allocation, its
symbols all passed the entry filter; exactly min(3, size of corr_subset)
symbols are selected; every selected symbol's correlation is at most the
correlation of every rankable-but-unselected symbol; and the selected
symbols appear in ascending correlation order with ties broken by the
original corr_subset order (the non-benchmark weekly-column order, i.e.
the universe's declared order — the sort is stable).  All correlations of
corr_subset are assumed defined (no NaN, whose Python sort order is
unspecified). -/
theorem selection_lowest_correlation
    (daily weekly : Table) (cur : Option (List (Sym × ℚ))) (r : Alloc)
    (filtered : List Sym) (lc : List (Sym × Option ℚ))
    (hok : generate_allocations daily weekly cur = Except.ok r)
    (hf : filteredSyms daily = Except.ok filtered)
    (hl : lastCorrelations weekly = Except.ok lc)
    (hall : ∀ p ∈ corrSubset filtered lc, p.2.isSome = true)
    (hnc : r ≠ [("CASH", 1)]) :
    (∀ s ∈ r.map Prod.fst, s ∈ filtered) ∧
    (r.map Prod.fst).length = min 3 (corrSubset filtered lc).length ∧
    (∀ s ∈ r.map Prod.fst, ∀ p ∈ corrSubset filtered lc, p.1 ∉ r.map Prod.fst →
      ∃ cs ct, (s, some cs) ∈ corrSubset filtered lc ∧ p.2 = some ct ∧ cs ≤ ct) ∧
    (r.map Prod.fst).Pairwise (fun s t =>
      ∃ cs ct, (s, some cs) ∈ corrSubset filtered lc ∧
        (t, some ct) ∈ corrSubset filtered lc ∧ cs ≤ ct ∧
        (cs = ct → [s, t].Sublist ((corrSubset filtered lc).map Prod.fst))) := by
  rcases generate_allocations_inv daily weekly cur r hok with h | ⟨f2, l2, hf2, hl2, hne2, hr⟩
  · exact absurd h hnc
  · rw [hf] at hf2
    cases hf2
    rw [hl] at hl2
    cases hl2
    have hkeys : r.map Prod.fst = selectedSyms filtered lc := by
      rw [hr, selectionAlloc_eq, List.map_map]
      have hcomp : (Prod.fst ∘ fun s : Sym =>
          (s, 1 / ((selectedSyms filtered lc).length : ℚ))) = id := rfl
      rw [hcomp, List.map_id]
    have hperm : (sortedEtfs filtered lc).Perm (corrSubset filtered lc) := by
      unfold sortedEtfs
      exact List.perm_insertionSort _ _
    refine ⟨?_, ?_, ?_, ?_⟩
    · intro s hs
      rw [hkeys] at hs
      obtain ⟨p, hp, hp1⟩ := selectedSyms_mem hs
      have := (List.mem_filter.mp hp).2
      rw [← hp1]
      simpa using this
    · rw [hkeys, selectedSyms_length]
    · intro s hs p hp hpnot
      rw [hkeys] at hs hpnot
      have hs2 := hs
      unfold selectedSyms at hs2
      obtain ⟨ps, hpsmem, hps1⟩ := List.mem_map.mp hs2
      have hpsS : ps ∈ sortedEtfs filtered lc := List.mem_of_mem_take hpsmem
      have hpssub : ps ∈ corrSubset filtered lc := hperm.mem_iff.mp hpsS
      have hpS : p ∈ sortedEtfs filtered lc := hperm.mem_iff.mpr hp
      rw [← List.take_append_drop 3 (sortedEtfs filtered lc)] at hpS
      rcases List.mem_append.mp hpS with hin | hin
      · exact absurd (by unfold selectedSyms; exact List.mem_map_of_mem Prod.fst hin) hpnot
      · have hsorted : (sortedEtfs filtered lc).Pairwise corrKeyLE := by
          unfold sortedEtfs
          exact List.sorted_insertionSort _ _
        rw [← List.take_append_drop 3 (sortedEtfs filtered lc)] at hsorted
        have hrel := (List.pairwise_append.mp hsorted).2.2 ps hpsmem p hin
        obtain ⟨cs, hcs⟩ := Option.isSome_iff_exists.mp (hall ps hpssub)
        obtain ⟨ct, hct⟩ := Option.isSome_iff_exists.mp (hall p hp)
        have hle : cs ≤ ct := by
          have h2 : pdCorrLE ps.2 p.2 = true := hrel
          rw [hcs, hct] at h2
          simpa [pdCorrLE] using h2
        have hps2 : (s, some cs) ∈ corrSubset filtered lc := by
          have : ps = (s, some cs) := by
            rw [← hps1, ← hcs]
          rw [← this]
          exact hpssub
        exact ⟨cs, ct, hps2, hct, hle⟩
    · rw [hkeys]
      unfold selectedSyms sortedEtfs
      rw [List.pairwise_map]
      exact (sorted_pairwise_lex (corrSubset filtered lc) hall).sublist
        (List.take_sublist 3 _)

/-- The most recent correlations of the 26-row weekly table, extracted
for the C3 witness. -/
def lcW : List (Sym × Option ℚ) :=
  match lastCorrelations weekly26 with
  | Except.ok l => l
  | Except.error _ => []

/-- Witness for C3 at a concrete input: the rising symbol A passes the
entry filter and is selected with weight 1. -/
theorem selection_lowest_correlation_witness :
    (∀ s ∈ ([("A", (1 : ℚ))] : Alloc).map Prod.fst, s ∈ ["A"]) ∧
    (([("A", (1 : ℚ))] : Alloc).map Prod.fst).length = min 3 (corrSubset ["A"] lcW).length ∧
    (∀ s ∈ ([("A", (1 : ℚ))] : Alloc).map Prod.fst, ∀ p ∈ corrSubset ["A"] lcW,
      p.1 ∉ ([("A", (1 : ℚ))] : Alloc).map Prod.fst →
      ∃ cs ct, (s, some cs) ∈ corrSubset ["A"] lcW ∧ p.2 = some ct ∧ cs ≤ ct) ∧
    (([("A", (1 : ℚ))] : Alloc).map Prod.fst).Pairwise (fun s t =>
      ∃ cs ct, (s, some cs) ∈ corrSubset ["A"] lcW ∧
        (t, some ct) ∈ corrSubset ["A"] lcW ∧ cs ≤ ct ∧
        (cs = ct → [s, t].Sublist ((corrSubset ["A"] lcW).map Prod.fst))) :=
  selection_lowest_correlation trendDaily weekly26 none [("A", 1)] ["A"] lcW
    (by with_unfolding_all rfl) (by with_unfolding_all rfl) (by with_unfolding_all rfl)
    (by with_unfolding_all decide) (by with_unfolding_all decide)

end ETFStrat
